import Mathlib

/-!
Verification of the humane-tracker backup tool's core data layer:
the query operations and the habit-merge transform of `HumaneData`
(`humane_cli.py`), shallowly embedded in Lean.

Modelling conventions:
* A JSON habit/entry object becomes a record whose optional fields are
  `Option`-valued; `obj.get(k, default)` becomes `field.getD default`,
  and raw indexing `obj[k]` (which raises `KeyError` when the key is
  absent) becomes a fallible access, so fallible code returns `Option`.
* Numeric entry values are embedded as `Int`.
* The Python `set` of source ids is embedded as the id list, observed
  only through membership, exactly as the set is in the source.
* Python `dict`/`defaultdict` insertion-order grouping is embedded by
  `groupByKeyAux`, the literal left-to-right loop appending to the
  group of a key and creating a new group (at the end) on first sight.
* The last-wins habit id index `{h["id"]: h for h in habits}` is
  observed only through lookup, embedded as `habitIndex`.
* File I/O and JSON parsing are out of scope; the constructor is
  embedded with its `filepath` argument abstracted to the snapshot the
  file would parse to.
-/

/-- A habit object; every field the core reads is optional in JSON. -/
structure Habit where
  id : Option String
  name : Option String
  category : Option String
  targetPerWeek : Option Int
  deriving DecidableEq

/-- An entry object; every field the core reads is optional in JSON. -/
structure Entry where
  id : Option String
  habitId : Option String
  date : Option String
  value : Option Int
  createdAt : Option String
  deriving DecidableEq

/-- The backup document: `habits`, `entries`, and the remaining
top-level key-value pairs (carried opaquely, as merge only copies
them). -/
structure Snapshot where
  habits : List Habit
  entries : List Entry
  extra : List (String × String)
  deriving DecidableEq

/-- `e.get("value", 0)`. -/
def valOf (e : Entry) : Int := e.value.getD 0

/-- `e.get("date", "")[:10]` — the normalized (day-level) date key. -/
def normDate (e : Entry) : String := (e.date.getD "").take 10

/-- `h.get("category", "uncategorized")`. -/
def categoryOf (h : Habit) : String := h.category.getD "uncategorized"

/-- `h.get("targetPerWeek", 0)`. -/
def targetOf (h : Habit) : Int := h.targetPerWeek.getD 0

/-- One step of `defaultdict` grouping: append `x` to the group of key
`k`, creating a fresh group at the end when `k` is new. -/
def addToGroups {α : Type} (k : String) (x : α) :
    List (String × List α) → List (String × List α)
  | [] => [(k, [x])]
  | (k', g) :: rest =>
      if k' = k then (k', g ++ [x]) :: rest
      else (k', g) :: addToGroups k x rest

/-- The left-to-right grouping loop over the input list. -/
def groupByKeyAux {α : Type} (key : α → String)
    (acc : List (String × List α)) : List α → List (String × List α)
  | [] => acc
  | x :: xs => groupByKeyAux key (addToGroups (key x) x acc) xs

/-- Group a list by a string key, keys in first-occurrence order,
members of a group in input order (Python `defaultdict(list)`). -/
def groupByKey {α : Type} (key : α → String) (l : List α) :
    List (String × List α) :=
  groupByKeyAux key [] l

/-- `get_categories`: group habits by category, default
"uncategorized". -/
def get_categories (d : Snapshot) : List (String × List Habit) :=
  groupByKey categoryOf d.habits

/-- `get_habits_by_category`: habits with `h.get("category") == category`
(note: no default here, unlike `get_categories`). -/
def get_habits_by_category (d : Snapshot) (c : String) : List Habit :=
  d.habits.filter (fun h => h.category == some c)

/-- `get_entries_for_habit`: entries with `e.get("habitId") == habit_id`. -/
def get_entries_for_habit (d : Snapshot) (i : String) : List Entry :=
  d.entries.filter (fun e => e.habitId == some i)

/-- Lookup in the habit index `{h["id"]: h for h in habits}`: the last
habit with the given id wins. -/
def habitIndex (hs : List Habit) (i : String) : Option Habit :=
  (hs.filter (fun h => h.id == some i)).getLast?

/-- `get_habit_name`: name from the index, `"Unknown"` when absent. -/
def get_habit_name (d : Snapshot) (i : String) : String :=
  match habitIndex d.habits i with
  | some h => h.name.getD "Unknown"
  | none => "Unknown"

/-- `get_category_stats`: `sorted(categories.items())` then
`(cat, len(habits), sum of targetPerWeek-default-0)` per group. -/
def get_category_stats (d : Snapshot) : List (String × Nat × Int) :=
  (List.insertionSort (fun a b => a.1 ≤ b.1) (get_categories d)).map
    (fun p => (p.1, p.2.length, (p.2.map targetOf).sum))

/-- `pat` begins the character list `s`. -/
def startsWithChars : List Char → List Char → Bool
  | [], _ => true
  | _ :: _, [] => false
  | a :: pa, b :: pb => a == b && startsWithChars pa pb

/-- Python `pat in s` on strings: `pat` occurs as a contiguous
substring of `s`. -/
def hasSubChars (pat : List Char) : List Char → Bool
  | [] => startsWithChars pat []
  | b :: t => startsWithChars pat (b :: t) || hasSubChars pat t

/-- Python `str.lower()`, embedded as per-character lowering of the
character list. -/
def lowerStr (s : String) : List Char :=
  s.data.map Char.toLower

/-- `find_habits_by_name`: case-insensitive substring match of the
pattern against each habit's name, in habit order. -/
def find_habits_by_name (d : Snapshot) (pat : String) : List Habit :=
  d.habits.filter
    (fun h => hasSubChars (lowerStr pat) (lowerStr (h.name.getD "")))

/-- `all_source_ids = set(source_habit_ids); discard(target)` — observed
only through membership, so embedded as the filtered id list. -/
def effSources (t : String) (S : List String) : List String :=
  S.filter (fun s => !(s == t))

/-- The merge's partition test:
`entry.get("habitId") == target or entry.get("habitId") in sources`. -/
def contributesb (t : String) (eff : List String) (e : Entry) : Bool :=
  match e.habitId with
  | none => false
  | some i => i == t || eff.contains i

/-- The contributing entries of a merge, in input order. -/
def contribEntries (d : Snapshot) (t : String) (S : List String) : List Entry :=
  d.entries.filter (contributesb t (effSources t S))

/-- `other_entries`: entries left out of the merge, in input order. -/
def untouchedEntries (d : Snapshot) (t : String) (S : List String) : List Entry :=
  d.entries.filter (fun e => !contributesb t (effSources t S) e)

/-- One comparison step of Python `max(..., key=value)`: a strictly
greater value replaces the current best; an equal one does not. -/
def pickMax (b x : Entry) : Entry :=
  if valOf b < valOf x then x else b

/-- Python `max(day_entries, key=lambda e: e.get("value", 0))`:
the first maximal entry of a nonempty list; `none` on `[]` (where
Python raises). -/
def firstMax : List Entry → Option Entry
  | [] => none
  | e :: es => some (es.foldl pickMax e)

/-- Build one merged entry from a date group's winner; `none` when the
winner has no `"id"` key (Python raises `KeyError` on `max_entry["id"]`). -/
def mkMergedEntry (t day : String) (w : Entry) : Option Entry :=
  match w.id with
  | none => none
  | some i =>
      some { id := some i, habitId := some t, date := some day,
             value := some (valOf w), createdAt := some (w.createdAt.getD "") }

/-- The loop producing `merged_entries`, one per date group. -/
def mergeGroups (t : String) : List (String × List Entry) → Option (List Entry)
  | [] => some []
  | (day, g) :: rest =>
      match firstMax g with
      | none => none
      | some w =>
          match mkMergedEntry t day w, mergeGroups t rest with
          | some m, some ms => some (m :: ms)
          | _, _ => none

/-- All merged entries of `merge_habits`, in date-group discovery order. -/
def mergedEntries (d : Snapshot) (t : String) (S : List String) :
    Option (List Entry) :=
  mergeGroups t (groupByKey normDate (contribEntries d t S))

/-- `new_habits = [h for h in habits if h["id"] not in all_source_ids]` —
fallible because `h["id"]` raises when a habit has no id. -/
def filterHabits (eff : List String) : List Habit → Option (List Habit)
  | [] => some []
  | h :: hs =>
      match h.id with
      | none => none
      | some i =>
          match filterHabits eff hs with
          | none => none
          | some r => some (if eff.contains i then r else h :: r)

/-- `merge_habits(target, sources)`: the new snapshot, or `none` where
the Python method raises (a contributing winner or a habit without an
id). -/
def mergeHabits (d : Snapshot) (t : String) (S : List String) :
    Option Snapshot :=
  match mergedEntries d t S, filterHabits (effSources t S) d.habits with
  | some ms, some hs =>
      some { habits := hs, entries := untouchedEntries d t S ++ ms,
             extra := d.extra }
  | _, _ => none

/-- The contributing entries of one normalized date. -/
def dayGroup (d : Snapshot) (t : String) (S : List String) (day : String) :
    List Entry :=
  (contribEntries d t S).filter (fun e => normDate e == day)

/-- Spec-level error kinds of the constructor: `LoadError` when neither
source is supplied; the id-index build raises on a habit without an id. -/
inductive InitError where
  | loadError
  | missingHabitId
  deriving DecidableEq

/-- `HumaneData.__init__`, with file I/O abstracted: `filepath` carries
the snapshot the named file would parse to. `data` is checked first,
as in the source; with neither, the constructor raises (spec:
LoadError) and no state is produced. Building the id index
`{h["id"]: h for h in habits}` raises when a habit lacks an id. -/
def initHumaneData (filepath : Option Snapshot) (data : Option Snapshot) :
    Except InitError Snapshot :=
  match data, filepath with
  | some d, _ =>
      if d.habits.all (fun h => h.id.isSome) then .ok d
      else .error .missingHabitId
  | none, some f =>
      if f.habits.all (fun h => h.id.isSome) then .ok f
      else .error .missingHabitId
  | none, none => .error .loadError

section GroupingLemmas

variable {α : Type} (key : α → String)

lemma keys_addToGroups_mem (k : String) (x : α) (acc : List (String × List α)) :
    ∀ k', k' ∈ (addToGroups k x acc).map Prod.fst ↔
      k' ∈ acc.map Prod.fst ∨ k' = k := by
  induction acc with
  | nil => simp [addToGroups]
  | cons a rest ih =>
      intro k'
      obtain ⟨ka, ga⟩ := a
      by_cases h : ka = k
      · subst h
        simp [addToGroups]
        tauto
      · simp [addToGroups, h, ih k']
        tauto

lemma keys_addToGroups_of_mem (k : String) (x : α) (acc : List (String × List α))
    (h : k ∈ acc.map Prod.fst) :
    (addToGroups k x acc).map Prod.fst = acc.map Prod.fst := by
  induction acc with
  | nil => simp at h
  | cons a rest ih =>
      obtain ⟨ka, ga⟩ := a
      by_cases hk : ka = k
      · subst hk
        simp [addToGroups]
      · rw [List.map_cons, List.mem_cons] at h
        rcases h with h | h
        · exact absurd h.symm hk
        · simp only [addToGroups, if_neg hk, List.map_cons]
          rw [ih h]

lemma keys_addToGroups_of_not_mem (k : String) (x : α) (acc : List (String × List α))
    (h : k ∉ acc.map Prod.fst) :
    (addToGroups k x acc).map Prod.fst = acc.map Prod.fst ++ [k] := by
  induction acc with
  | nil => simp [addToGroups]
  | cons a rest ih =>
      obtain ⟨ka, ga⟩ := a
      rw [List.map_cons, List.mem_cons] at h
      push_neg at h
      by_cases hk : ka = k
      · exact absurd hk.symm h.1
      · simp only [addToGroups, if_neg hk, List.map_cons, List.cons_append]
        rw [ih h.2]

lemma nodup_keys_addToGroups (k : String) (x : α) (acc : List (String × List α))
    (h : (acc.map Prod.fst).Nodup) :
    ((addToGroups k x acc).map Prod.fst).Nodup := by
  by_cases hm : k ∈ acc.map Prod.fst
  · rw [keys_addToGroups_of_mem k x acc hm]; exact h
  · rw [keys_addToGroups_of_not_mem k x acc hm]
    simp [List.nodup_append, h, hm]

lemma mem_addToGroups (k : String) (x : α) (acc : List (String × List α))
    (hnd : (acc.map Prod.fst).Nodup) {k' : String} {g : List α}
    (hm : (k', g) ∈ addToGroups k x acc) :
    (k' ≠ k ∧ (k', g) ∈ acc) ∨
    (k' = k ∧ k ∉ acc.map Prod.fst ∧ g = [x]) ∨
    (k' = k ∧ ∃ g₀, (k, g₀) ∈ acc ∧ g = g₀ ++ [x]) := by
  induction acc with
  | nil =>
      simp [addToGroups] at hm
      exact Or.inr (Or.inl ⟨hm.1, by simp, hm.2⟩)
  | cons a rest ih =>
      obtain ⟨ka, ga⟩ := a
      simp at hnd
      by_cases hk : ka = k
      · subst hk
        simp [addToGroups] at hm
        rcases hm with ⟨h1, h2⟩ | hm
        · subst h1
          exact Or.inr (Or.inr ⟨rfl, ga, by simp, h2⟩)
        · have hk' : k' ≠ ka := by
            rintro rfl
            exact hnd.1 g (by simpa using hm)
          exact Or.inl ⟨hk', by simp [hm]⟩
      · simp [addToGroups, hk] at hm
        rcases hm with ⟨h1, h2⟩ | hm
        · exact Or.inl ⟨by simp [h1, hk], by simp [h1, h2]⟩
        · rcases ih hnd.2 hm with ⟨h1, h2⟩ | ⟨h1, h2, h3⟩ | ⟨h1, g₀, h2, h3⟩
          · exact Or.inl ⟨h1, by simp [h2]⟩
          · exact Or.inr (Or.inl ⟨h1, by simp [h2, Ne.symm hk], h3⟩)
          · exact Or.inr (Or.inr ⟨h1, g₀, by simp [h2], h3⟩)

lemma sum_addToGroups (k : String) (x : α) (acc : List (String × List α)) :
    ((addToGroups k x acc).map (fun p => p.2.length)).sum =
      (acc.map (fun p => p.2.length)).sum + 1 := by
  induction acc with
  | nil => simp [addToGroups]
  | cons a rest ih =>
      obtain ⟨ka, ga⟩ := a
      by_cases hk : ka = k
      · subst hk
        simp [addToGroups]
        omega
      · simp [addToGroups, hk, ih]
        omega

lemma keys_groupByKeyAux_mem (l : List α) :
    ∀ (acc : List (String × List α)) (k : String),
      k ∈ (groupByKeyAux key acc l).map Prod.fst ↔
        k ∈ acc.map Prod.fst ∨ ∃ y ∈ l, key y = k := by
  induction l with
  | nil => simp [groupByKeyAux]
  | cons x xs ih =>
      intro acc k
      simp only [groupByKeyAux]
      rw [ih]
      rw [keys_addToGroups_mem]
      constructor
      · rintro ((h | h) | ⟨y, hy, hk⟩)
        · exact Or.inl h
        · exact Or.inr ⟨x, by simp, h.symm⟩
        · exact Or.inr ⟨y, by simp [hy], hk⟩
      · rintro (h | ⟨y, hy, hk⟩)
        · exact Or.inl (Or.inl h)
        · rcases List.mem_cons.mp hy with rfl | hy
          · exact Or.inl (Or.inr hk.symm)
          · exact Or.inr ⟨y, hy, hk⟩

lemma nodup_keys_groupByKeyAux (l : List α) :
    ∀ (acc : List (String × List α)), (acc.map Prod.fst).Nodup →
      ((groupByKeyAux key acc l).map Prod.fst).Nodup := by
  induction l with
  | nil => intro acc h; simpa [groupByKeyAux] using h
  | cons x xs ih =>
      intro acc h
      simp only [groupByKeyAux]
      exact ih _ (nodup_keys_addToGroups _ _ _ h)

lemma sum_groupByKeyAux (l : List α) :
    ∀ (acc : List (String × List α)),
      ((groupByKeyAux key acc l).map (fun p => p.2.length)).sum =
        (acc.map (fun p => p.2.length)).sum + l.length := by
  induction l with
  | nil => simp [groupByKeyAux]
  | cons x xs ih =>
      intro acc
      simp only [groupByKeyAux]
      rw [ih, sum_addToGroups]
      simp
      omega

lemma mem_groupByKeyAux (l : List α) :
    ∀ (acc : List (String × List α)), (acc.map Prod.fst).Nodup →
      ∀ k g, (k, g) ∈ groupByKeyAux key acc l →
        (∃ g₀, (k, g₀) ∈ acc ∧ g = g₀ ++ l.filter (fun y => key y == k)) ∨
        (k ∉ acc.map Prod.fst ∧ g = l.filter (fun y => key y == k)) := by
  induction l with
  | nil =>
      intro acc _ k g hm
      exact Or.inl ⟨g, by simpa [groupByKeyAux] using hm, by simp⟩
  | cons x xs ih =>
      intro acc hnd k g hm
      simp only [groupByKeyAux] at hm
      rcases ih _ (nodup_keys_addToGroups _ _ _ hnd) k g hm with
        ⟨g₀, hg₀, hg⟩ | ⟨hk, hg⟩
      · rcases mem_addToGroups _ _ _ hnd hg₀ with
          ⟨hne, hmem⟩ | ⟨rfl, hnotin, rfl⟩ | ⟨rfl, g₁, hmem, rfl⟩
        · refine Or.inl ⟨g₀, hmem, ?_⟩
          rw [hg, List.filter_cons_of_neg]
          simp [hne]
          exact fun h => hne h.symm
        · refine Or.inr ⟨hnotin, ?_⟩
          rw [hg, List.filter_cons_of_pos (by simp)]
          simp
        · refine Or.inl ⟨g₁, hmem, ?_⟩
          rw [hg, List.filter_cons_of_pos (by simp), List.append_assoc]
          simp
      · rw [keys_addToGroups_mem] at hk
        push_neg at hk
        refine Or.inr ⟨hk.1, ?_⟩
        rw [hg, List.filter_cons_of_neg]
        simp [hk.2]
        exact fun h => hk.2 h.symm

lemma mem_groupByKey {k : String} {g : List α} {l : List α}
    (hm : (k, g) ∈ groupByKey key l) :
    g = l.filter (fun y => key y == k) := by
  rcases mem_groupByKeyAux key l [] (by simp) k g hm with ⟨g₀, hg₀, _⟩ | ⟨_, hg⟩
  · simp at hg₀
  · exact hg

lemma keys_groupByKey {k : String} {l : List α} :
    k ∈ (groupByKey key l).map Prod.fst ↔ ∃ y ∈ l, key y = k := by
  rw [groupByKey, keys_groupByKeyAux_mem]
  simp

lemma nodup_keys_groupByKey (l : List α) :
    ((groupByKey key l).map Prod.fst).Nodup :=
  nodup_keys_groupByKeyAux key l [] (by simp)

lemma sum_groupByKey (l : List α) :
    ((groupByKey key l).map (fun p => p.2.length)).sum = l.length := by
  rw [groupByKey, sum_groupByKeyAux]
  simp

lemma exists_group_of_mem {l : List α} {y : α} (hy : y ∈ l) :
    ∃ g, (key y, g) ∈ groupByKey key l ∧
      g = l.filter (fun z => key z == key y) := by
  have hk : key y ∈ (groupByKey key l).map Prod.fst :=
    (keys_groupByKey key).mpr ⟨y, hy, rfl⟩
  rcases List.mem_map.mp hk with ⟨p, hmem, hfst⟩
  have hmem' : (key y, p.2) ∈ groupByKey key l := by
    rw [← hfst]
    exact hmem
  exact ⟨p.2, hmem', mem_groupByKey key hmem'⟩

lemma group_ne_nil {k : String} {g : List α} {l : List α}
    (hm : (k, g) ∈ groupByKey key l) : g ≠ [] := by
  have hk : k ∈ (groupByKey key l).map Prod.fst :=
    List.mem_map.mpr ⟨(k, g), hm, rfl⟩
  rcases (keys_groupByKey key).mp hk with ⟨y, hy, hky⟩
  have : y ∈ g := by
    rw [mem_groupByKey key hm]
    simp [hy, hky]
  intro h
  rw [h] at this
  simp at this

end GroupingLemmas

section MaxScanLemmas

lemma foldl_pickMax_mem (es : List Entry) :
    ∀ b : Entry, es.foldl pickMax b = b ∨ es.foldl pickMax b ∈ es := by
  induction es with
  | nil => intro b; simp
  | cons x t ih =>
      intro b
      rw [List.foldl_cons]
      rcases ih (pickMax b x) with h | h
      · rw [h]
        unfold pickMax
        split
        · exact Or.inr (by simp)
        · exact Or.inl rfl
      · exact Or.inr (by simp [h])

lemma foldl_pickMax_le_init (es : List Entry) :
    ∀ b : Entry, valOf b ≤ valOf (es.foldl pickMax b) := by
  induction es with
  | nil => intro b; simp
  | cons x t ih =>
      intro b
      rw [List.foldl_cons]
      refine le_trans ?_ (ih (pickMax b x))
      unfold pickMax
      split
      · exact le_of_lt (by assumption)
      · exact le_refl _

lemma foldl_pickMax_le_mem (es : List Entry) :
    ∀ b : Entry, ∀ x ∈ es, valOf x ≤ valOf (es.foldl pickMax b) := by
  induction es with
  | nil => intro b x hx; simp at hx
  | cons y t ih =>
      intro b x hx
      rw [List.foldl_cons]
      rcases List.mem_cons.mp hx with rfl | hx
      · refine le_trans ?_ (foldl_pickMax_le_init t (pickMax b x))
        unfold pickMax
        split
        · exact le_refl _
        · exact le_of_not_lt (by assumption)
      · exact ih (pickMax b y) x hx

lemma foldl_pickMax_first (es : List Entry) :
    ∀ b : Entry, ∃ l₁ l₂, b :: es = l₁ ++ (es.foldl pickMax b) :: l₂ ∧
      ∀ x ∈ l₁, valOf x < valOf (es.foldl pickMax b) := by
  induction es with
  | nil =>
      intro b
      exact ⟨[], [], by simp, by simp⟩
  | cons x t ih =>
      intro b
      rw [List.foldl_cons]
      by_cases h : valOf b < valOf x
      · have hbx : pickMax b x = x := by unfold pickMax; rw [if_pos h]
        rw [hbx]
        rcases ih x with ⟨l₁, l₂, hsplit, hlt⟩
        refine ⟨b :: l₁, l₂, by rw [List.cons_append, ← hsplit], ?_⟩
        intro z hz
        rcases List.mem_cons.mp hz with rfl | hz
        · exact lt_of_lt_of_le h (foldl_pickMax_le_init t x)
        · exact hlt z hz
      · have hbx : pickMax b x = b := by unfold pickMax; rw [if_neg h]
        rw [hbx]
        rcases ih b with ⟨l₁, l₂, hsplit, hlt⟩
        match l₁, hsplit with
        | [], hsplit =>
            have hb : t.foldl pickMax b = b := by
              have := congrArg (fun l => l.head?) hsplit
              simpa using this.symm
            have ht : l₂ = t := by
              have := congrArg (fun l => l.tail) hsplit
              simpa using this.symm
            refine ⟨[], x :: t, ?_, by simp⟩
            rw [hb]
            simp
        | c :: l₁', hsplit =>
            have hc : c = b := by
              have := congrArg (fun l => l.head?) hsplit
              simpa using this.symm
            have ht : t = l₁' ++ (t.foldl pickMax b) :: l₂ := by
              have := congrArg (fun l => l.tail) hsplit
              simpa using this
            refine ⟨b :: x :: l₁', l₂, ?_, ?_⟩
            · rw [List.cons_append, List.cons_append, ← ht]
            · intro z hz
              have hcr : valOf b < valOf (t.foldl pickMax b) := by
                have := hlt c (by simp)
                rwa [hc] at this
              rcases List.mem_cons.mp hz with rfl | hz
              · exact hcr
              · rcases List.mem_cons.mp hz with rfl | hz
                · exact lt_of_le_of_lt (le_of_not_lt h) hcr
                · exact hlt z (by simp [hz])

lemma firstMax_mem {l : List Entry} {w : Entry} (h : firstMax l = some w) :
    w ∈ l := by
  match l, h with
  | e :: es, h =>
      have hw : es.foldl pickMax e = w := by
        simpa [firstMax] using h
      rcases foldl_pickMax_mem es e with h' | h'
      · rw [hw] at h'; simp [← h']
      · rw [hw] at h'; simp [h']

lemma firstMax_le {l : List Entry} {w : Entry} (h : firstMax l = some w) :
    ∀ x ∈ l, valOf x ≤ valOf w := by
  match l, h with
  | e :: es, h =>
      have hw : es.foldl pickMax e = w := by
        simpa [firstMax] using h
      intro x hx
      rcases List.mem_cons.mp hx with rfl | hx
      · rw [← hw]; exact foldl_pickMax_le_init es x
      · rw [← hw]; exact foldl_pickMax_le_mem es e x hx

lemma firstMax_first {l : List Entry} {w : Entry} (h : firstMax l = some w) :
    ∃ l₁ l₂, l = l₁ ++ w :: l₂ ∧ ∀ x ∈ l₁, valOf x < valOf w := by
  match l, h with
  | e :: es, h =>
      have hw : es.foldl pickMax e = w := by
        simpa [firstMax] using h
      rcases foldl_pickMax_first es e with ⟨l₁, l₂, hsplit, hlt⟩
      rw [hw] at hsplit hlt
      exact ⟨l₁, l₂, hsplit, hlt⟩

lemma firstMax_isSome {l : List Entry} (h : l ≠ []) :
    ∃ w, firstMax l = some w := by
  match l, h with
  | e :: es, _ => exact ⟨es.foldl pickMax e, rfl⟩

end MaxScanLemmas

section MergeGroupLemmas

/-- Pointwise characterization of a successful `mergeGroups` run. -/
lemma mergeGroups_forall₂ {t : String} :
    ∀ {gs : List (String × List Entry)} {ms : List Entry},
      mergeGroups t gs = some ms →
      List.Forall₂ (fun (g : String × List Entry) (m : Entry) =>
        ∃ w, firstMax g.2 = some w ∧ mkMergedEntry t g.1 w = some m) gs ms := by
  intro gs
  induction gs with
  | nil =>
      intro ms h
      simp [mergeGroups] at h
      rw [h]
      exact List.Forall₂.nil
  | cons g rest ih =>
      intro ms h
      obtain ⟨day, grp⟩ := g
      simp only [mergeGroups] at h
      rcases hfm : firstMax grp with _ | w
      · rw [hfm] at h; simp at h
      · simp only [hfm] at h
        rcases hmk : mkMergedEntry t day w with _ | m
        · simp only [hmk] at h; simp at h
        · simp only [hmk] at h
          rcases hrest : mergeGroups t rest with _ | ms'
          · simp only [hrest] at h; simp at h
          · simp only [hrest] at h
            simp at h
            rw [← h]
            exact List.Forall₂.cons ⟨w, hfm, hmk⟩ (ih hrest)

lemma mergeGroups_dates {t : String} {gs : List (String × List Entry)}
    {ms : List Entry} (h : mergeGroups t gs = some ms) :
    ms.map Entry.date = gs.map (fun g => some g.1) := by
  have hf := mergeGroups_forall₂ h
  clear h
  induction hf with
  | nil => simp
  | cons hrel _ ih =>
      rcases hrel with ⟨w, _, hmk⟩
      unfold mkMergedEntry at hmk
      rcases hw : Entry.id w with _ | i
      · rw [hw] at hmk; simp at hmk
      · rw [hw] at hmk
        simp at hmk
        simp [List.map_cons, ih, ← hmk]

lemma mergeGroups_mem {t : String} {gs : List (String × List Entry)}
    {ms : List Entry} (h : mergeGroups t gs = some ms) :
    ∀ m ∈ ms, ∃ g ∈ gs, ∃ w, firstMax g.2 = some w ∧
      mkMergedEntry t g.1 w = some m := by
  have hf := mergeGroups_forall₂ h
  clear h
  induction hf with
  | nil => simp
  | cons hrel _ ih =>
      intro m hm
      rcases List.mem_cons.mp hm with rfl | hm
      · exact ⟨_, by simp, hrel⟩
      · rcases ih m hm with ⟨g, hg, hrest⟩
        exact ⟨g, by simp [hg], hrest⟩

lemma mergeGroups_isSome {t : String} :
    ∀ {gs : List (String × List Entry)},
      (∀ g ∈ gs, g.2 ≠ [] ∧ ∀ e ∈ g.2, e.id.isSome) →
      ∃ ms, mergeGroups t gs = some ms := by
  intro gs
  induction gs with
  | nil => intro _; exact ⟨[], rfl⟩
  | cons g rest ih =>
      intro hall
      obtain ⟨day, grp⟩ := g
      obtain ⟨hne, hid⟩ := hall (day, grp) (by simp)
      rcases firstMax_isSome hne with ⟨w, hw⟩
      have hwid : w.id.isSome := hid w (firstMax_mem hw)
      rcases hi : w.id with _ | i
      · rw [hi] at hwid; simp at hwid
      · rcases ih (fun g hg => hall g (by simp [hg])) with ⟨ms', hms'⟩
        refine ⟨{ id := some i, habitId := some t, date := some day,
                  value := some (valOf w),
                  createdAt := some (w.createdAt.getD "") } :: ms', ?_⟩
        simp [mergeGroups, hw, hms', mkMergedEntry, hi]

end MergeGroupLemmas

section MergeHelperLemmas

lemma mem_effSources {t : String} {S : List String} {s : String} :
    s ∈ effSources t S ↔ s ∈ S ∧ s ≠ t := by
  simp [effSources]

lemma target_not_mem_effSources {t : String} {S : List String} :
    t ∉ effSources t S := by
  rw [mem_effSources]
  simp

lemma contributesb_eq_false_iff {t : String} {eff : List String} {e : Entry} :
    contributesb t eff e = false ↔
      e.habitId ≠ some t ∧ ∀ s ∈ eff, e.habitId ≠ some s := by
  unfold contributesb
  rcases hh : e.habitId with _ | i
  · simp
  · simp
    intro _
    constructor
    · intro h s hs hsi
      rw [hsi] at h
      exact h hs
    · intro h hi
      exact h i hi rfl

lemma mkMergedEntry_eq {t day : String} {w m : Entry}
    (h : mkMergedEntry t day w = some m) :
    ∃ i, w.id = some i ∧
      m = { id := some i, habitId := some t, date := some day,
            value := some (valOf w), createdAt := some (w.createdAt.getD "") } := by
  unfold mkMergedEntry at h
  rcases hw : w.id with _ | i
  · rw [hw] at h; simp at h
  · rw [hw] at h
    simp at h
    exact ⟨i, rfl, h.symm⟩

lemma mergeHabits_parts {d : Snapshot} {t : String} {S : List String} {r : Snapshot}
    (hr : mergeHabits d t S = some r) :
    ∃ ms hs, mergedEntries d t S = some ms ∧
      filterHabits (effSources t S) d.habits = some hs ∧
      r.habits = hs ∧ r.entries = untouchedEntries d t S ++ ms ∧
      r.extra = d.extra := by
  simp only [mergeHabits] at hr
  rcases hme : mergedEntries d t S with _ | ms
  · rw [hme] at hr; simp at hr
  · simp only [hme] at hr
    rcases hfh : filterHabits (effSources t S) d.habits with _ | hs
    · simp only [hfh] at hr; simp at hr
    · simp only [hfh] at hr
      simp at hr
      exact ⟨ms, hs, rfl, rfl, by rw [← hr], by rw [← hr], by rw [← hr]⟩

lemma effSources_idem {t : String} {S : List String} :
    effSources t (effSources t S) = effSources t S := by
  unfold effSources
  rw [List.filter_filter]
  apply List.filter_congr
  intro s _
  simp

end MergeHelperLemmas

lemma filterHabits_eq (eff : List String) :
    ∀ {hs l : List Habit},
      filterHabits eff hs = some l →
      l = hs.filter (fun h => decide (¬ ∃ s ∈ eff, h.id = some s)) := by
  intro hs
  induction hs with
  | nil =>
      intro l h
      simp [filterHabits] at h
      subst h
      simp
  | cons hh rest ih =>
      intro l h
      simp only [filterHabits] at h
      rcases hid : hh.id with _ | i
      · simp only [hid] at h; simp at h
      · simp only [hid] at h
        rcases hrec : filterHabits eff rest with _ | r'
        · simp only [hrec] at h; simp at h
        · simp only [hrec] at h
          simp at h
          by_cases hc : i ∈ eff
          · have hpred : (fun h => decide (¬ ∃ s ∈ eff, Habit.id h = some s)) hh = false := by
              simpa [hid] using hc
            rw [List.filter_cons_of_neg (by simpa using hpred)]
            rw [if_pos hc] at h
            rw [← h]
            exact ih hrec
          · have hpred : (fun h => decide (¬ ∃ s ∈ eff, Habit.id h = some s)) hh = true := by
              simpa [hid] using hc
            rw [List.filter_cons_of_pos (by simpa using hpred)]
            rw [if_neg hc] at h
            rw [← h, ih hrec]

lemma filterHabits_isSome (eff : List String) :
    ∀ {hs : List Habit},
      (∀ h ∈ hs, h.id.isSome) → ∃ l, filterHabits eff hs = some l := by
  intro hs
  induction hs with
  | nil => intro _; exact ⟨[], rfl⟩
  | cons hh rest ih =>
      intro hall
      rcases hid : hh.id with _ | i
      · have := hall hh (by simp)
        rw [hid] at this
        simp at this
      · rcases ih (fun h hm => hall h (by simp [hm])) with ⟨l, hl⟩
        refine ⟨if eff.contains i then l else hh :: l, ?_⟩
        simp [filterHabits, hid, hl]

/-- C3: in the result of a successful merge no entry carries the
habitId of an effective source: every merged entry is reassigned to
the target id, and every other (untouched) result entry has a habitId
that is neither the target nor an effective source. -/
theorem merge_reassigns_habit_ids (d : Snapshot) (t : String) (S : List String)
    (r : Snapshot) (hr : mergeHabits d t S = some r) :
    (∀ e ∈ r.entries, ∀ s ∈ effSources t S, e.habitId ≠ some s) ∧
    (∃ ms, mergedEntries d t S = some ms ∧
      r.entries = untouchedEntries d t S ++ ms ∧
      (∀ m ∈ ms, m.habitId = some t) ∧
      (∀ e ∈ untouchedEntries d t S,
        e.habitId ≠ some t ∧ ∀ s ∈ effSources t S, e.habitId ≠ some s)) := by
  rcases mergeHabits_parts hr with ⟨ms, hs, hms, hfh, hrh, hre, hrx⟩
  have hmerged : ∀ m ∈ ms, m.habitId = some t := by
    intro m hm
    rcases mergeGroups_mem hms m hm with ⟨g, _, w, _, hmk⟩
    rcases mkMergedEntry_eq hmk with ⟨i, _, rfl⟩
    rfl
  have huntouched : ∀ e ∈ untouchedEntries d t S,
      e.habitId ≠ some t ∧ ∀ s ∈ effSources t S, e.habitId ≠ some s := by
    intro e he
    have hb : contributesb t (effSources t S) e = false := by
      have := (List.mem_filter.mp he).2
      simpa using this
    exact contributesb_eq_false_iff.mp hb
  refine ⟨?_, ms, hms, hre, hmerged, huntouched⟩
  intro e he s hsrc
  rw [hre] at he
  rcases List.mem_append.mp he with he | he
  · exact (huntouched e he).2 s hsrc
  · rw [hmerged e he]
    intro hcontra
    have : s = t := by
      simpa using hcontra.symm
    rw [this] at hsrc
    exact target_not_mem_effSources hsrc

/-- C4: a successful merge removes from the habits list exactly the
habits whose id is an effective source, in input order; the target
habit is kept unchanged; the effective sources are the source ids
minus the target, so a target id listed among the sources is silently
dropped (merging with `S` behaves as merging with `S` minus the
target). -/
theorem merge_removes_source_habits (d : Snapshot) (t : String) (S : List String)
    (r : Snapshot) (hr : mergeHabits d t S = some r) :
    r.habits = d.habits.filter (fun h => decide (¬ ∃ s ∈ effSources t S, h.id = some s)) ∧
    (∀ h ∈ d.habits, h.id = some t → h ∈ r.habits) ∧
    (∀ s, s ∈ effSources t S ↔ s ∈ S ∧ s ≠ t) ∧
    mergeHabits d t S = mergeHabits d t (effSources t S) := by
  rcases mergeHabits_parts hr with ⟨ms, hs, hms, hfh, hrh, hre, hrx⟩
  have hchar : r.habits =
      d.habits.filter (fun h => decide (¬ ∃ s ∈ effSources t S, h.id = some s)) := by
    rw [hrh]
    exact filterHabits_eq (effSources t S) hfh
  refine ⟨hchar, ?_, fun s => mem_effSources, ?_⟩
  · intro h hh hid
    rw [hchar]
    rw [List.mem_filter]
    refine ⟨hh, ?_⟩
    simp [hid]
    intro hmem
    exact target_not_mem_effSources hmem
  · unfold mergeHabits mergedEntries contribEntries untouchedEntries
    rw [effSources_idem]

/-- C5: a successful merge leaves everything outside the merged
entries untouched: non-contributing entries pass through unchanged as
a sublist (same records, same relative order) placed before all merged
entries, and every top-level field other than habits and entries (the
`extra` pairs) is copied unchanged. Input immutability is inherent in
the embedding: `mergeHabits` is a pure function of the snapshot. -/
theorem merge_frame (d : Snapshot) (t : String) (S : List String)
    (r : Snapshot) (hr : mergeHabits d t S = some r) :
    ∃ ms, mergedEntries d t S = some ms ∧
      r.entries = untouchedEntries d t S ++ ms ∧
      untouchedEntries d t S =
        d.entries.filter (fun e => !contributesb t (effSources t S) e) ∧
      (untouchedEntries d t S).Sublist d.entries ∧
      (∀ e ∈ d.entries, contributesb t (effSources t S) e = false →
        e ∈ untouchedEntries d t S) ∧
      r.extra = d.extra := by
  rcases mergeHabits_parts hr with ⟨ms, hs, hms, hfh, hrh, hre, hrx⟩
  refine ⟨ms, hms, hre, rfl, ?_, ?_, hrx⟩
  · exact List.filter_sublist d.entries
  · intro e he hb
    rw [untouchedEntries, List.mem_filter]
    exact ⟨he, by simp [hb]⟩

lemma countP_eq_one_of_nodup_mem {l : List String} {a : String}
    (h : l.Nodup) (hm : a ∈ l) :
    l.countP (fun k => k == a) = 1 := by
  induction l with
  | nil => simp at hm
  | cons x xs ih =>
      obtain ⟨hx, hxs⟩ := List.nodup_cons.mp h
      rw [List.countP_cons]
      rcases List.mem_cons.mp hm with rfl | hm
      · have hz : xs.countP (fun k => k == a) = 0 := by
          rw [List.countP_eq_zero]
          intro b hb
          simp
          intro hba
          rw [hba] at hb
          exact hx hb
        simp [hz]
      · have hne : (x == a) = false := by
          simp
          intro hxa
          rw [hxa] at hx
          exact hx hm
        rw [ih hxs hm, hne]
        simp

lemma mergeGroups_mem_left {t : String} {gs : List (String × List Entry)}
    {ms : List Entry} (h : mergeGroups t gs = some ms) :
    ∀ g ∈ gs, ∃ m ∈ ms, ∃ w, firstMax g.2 = some w ∧
      mkMergedEntry t g.1 w = some m := by
  have hf := mergeGroups_forall₂ h
  clear h
  induction hf with
  | nil => simp
  | cons hrel _ ih =>
      intro g hg
      rcases List.mem_cons.mp hg with rfl | hg
      · exact ⟨_, by simp, hrel⟩
      · rcases ih g hg with ⟨m, hm, hrest⟩
        exact ⟨m, by simp [hm], hrest⟩

/-- C1: for every normalized date with at least one contributing entry,
a successful merge emits exactly one entry carrying that (normalized)
date; its value is the maximum value among the contributing entries of
that date, its id and createdAt come from the winning entry, and the
winner is the first-encountered maximal entry of the date group (the
entries scanned before it are all strictly smaller). -/
theorem merge_max_per_date (d : Snapshot) (t : String) (S : List String)
    (ms : List Entry) (hms : mergedEntries d t S = some ms)
    (day : String) (hday : dayGroup d t S day ≠ []) :
    ∃ w : Entry,
      w ∈ dayGroup d t S day ∧
      (∀ x ∈ dayGroup d t S day, valOf x ≤ valOf w) ∧
      (∃ l₁ l₂, dayGroup d t S day = l₁ ++ w :: l₂ ∧
        ∀ x ∈ l₁, valOf x < valOf w) ∧
      (ms.filter (fun m => m.date == some day)).length = 1 ∧
      (∀ m ∈ ms, m.date = some day →
        m = { id := w.id, habitId := some t, date := some day,
              value := some (valOf w), createdAt := some (w.createdAt.getD "") }) := by
  have hgname : dayGroup d t S day =
      (contribEntries d t S).filter (fun e => normDate e == day) := rfl
  -- a contributing entry of that day exists
  rcases List.exists_mem_of_ne_nil _ hday with ⟨e, he⟩
  rw [hgname, List.mem_filter] at he
  obtain ⟨hec, hed⟩ := he
  have hed' : normDate e = day := by simpa using hed
  -- the day's group inside the grouping
  rcases exists_group_of_mem normDate hec with ⟨g, hgmem, hgeq⟩
  rw [hed'] at hgmem hgeq
  have hgday : g = dayGroup d t S day := by rw [hgeq, hgname]
  -- the winner
  rcases firstMax_isSome (l := g) (by rw [hgday]; exact hday) with ⟨w, hw⟩
  have hwday : firstMax (dayGroup d t S day) = some w := by rw [← hgday]; exact hw
  refine ⟨w, firstMax_mem hwday, firstMax_le hwday, firstMax_first hwday, ?_, ?_⟩
  · -- exactly one merged entry carries this date
    have hdates := mergeGroups_dates hms
    have hkeys :
        ((groupByKey normDate (contribEntries d t S)).map Prod.fst).Nodup :=
      nodup_keys_groupByKey normDate _
    have hdaykey :
        day ∈ (groupByKey normDate (contribEntries d t S)).map Prod.fst :=
      List.mem_map.mpr ⟨(day, g), hgmem, rfl⟩
    have h1 : (ms.filter (fun m => m.date == some day)).length =
        ms.countP (fun m => m.date == some day) :=
      (List.countP_eq_length_filter _ _).symm
    have h2 : ms.countP (fun m => m.date == some day) =
        (ms.map Entry.date).countP (fun x => x == some day) := by
      rw [List.countP_map]
      rfl
    have h3 : (ms.map Entry.date).countP (fun x => x == some day) =
        ((groupByKey normDate (contribEntries d t S)).map Prod.fst).countP
          (fun k => k == day) := by
      rw [hdates]
      have : (groupByKey normDate (contribEntries d t S)).map
          (fun g => some g.1) =
          ((groupByKey normDate (contribEntries d t S)).map Prod.fst).map some := by
        rw [List.map_map]
        rfl
      rw [this, List.countP_map]
      apply List.countP_congr
      intro k _
      simp
    rw [h1, h2, h3]
    exact countP_eq_one_of_nodup_mem hkeys hdaykey
  · -- every merged entry of this date is built from the winner
    intro m hm hmday
    rcases mergeGroups_mem hms m hm with ⟨g', hg'mem, w', hw', hmk⟩
    rcases mkMergedEntry_eq hmk with ⟨i, hwi, rfl⟩
    simp at hmday
    have hg'eq : g'.2 =
        (contribEntries d t S).filter (fun y => normDate y == g'.1) := by
      have : (g'.1, g'.2) ∈ groupByKey normDate (contribEntries d t S) := hg'mem
      exact mem_groupByKey normDate this
    rw [hmday] at hg'eq
    have hg'day : g'.2 = dayGroup d t S day := by rw [hg'eq, hgname]
    rw [hg'day, hwday] at hw'
    have hww : w' = w := by
      simpa using hw'.symm
    subst hww
    rw [hmday, hwi]

lemma mergeHabits_isSome (d : Snapshot) (t : String) (S : List String)
    (hhab : ∀ h ∈ d.habits, h.id.isSome)
    (hent : ∀ e ∈ contribEntries d t S, e.id.isSome) :
    ∃ r, mergeHabits d t S = some r := by
  have hgs : ∀ g ∈ groupByKey normDate (contribEntries d t S),
      g.2 ≠ [] ∧ ∀ e ∈ g.2, e.id.isSome := by
    intro g hg
    refine ⟨group_ne_nil normDate hg, ?_⟩
    intro e he
    rw [mem_groupByKey normDate hg] at he
    exact hent e (List.mem_filter.mp he).1
  rcases @mergeGroups_isSome t _ hgs with ⟨ms, hms⟩
  rcases filterHabits_isSome (effSources t S) hhab with ⟨hs, hfh⟩
  refine ⟨{ habits := hs, entries := untouchedEntries d t S ++ ms,
            extra := d.extra }, ?_⟩
  simp [mergeHabits, mergedEntries, hms, hfh]

/-- A snapshot whose single contributing entry lacks an `"id"` key. -/
def snapNoEntryId : Snapshot :=
  { habits := [{ id := some "t", name := none, category := none,
                 targetPerWeek := none }],
    entries := [{ id := none, habitId := some "t", date := some "2025-01-01",
                  value := some 5, createdAt := none }],
    extra := [] }

/-- C2 counterexample: the merge is not total over snapshots with a
missing entry id — on `snapNoEntryId` (entry has habitId, date, value
but no id) `merge_habits` raises `KeyError` at `max_entry["id"]`,
i.e. the embedded merge returns `none`. -/
theorem merge_not_total_on_missing_id :
    mergeHabits snapNoEntryId "t" [] = none := by decide

/-- C2 (amended): the merge completes for every snapshot, target and
source set provided every habit and every contributing entry carries
an id; missing `value`, `date` or `createdAt` fields never cause a
failure — the documented defaults are substituted. -/
theorem merge_total_with_ids (d : Snapshot) (t : String) (S : List String)
    (hhab : ∀ h ∈ d.habits, h.id.isSome)
    (hent : ∀ e ∈ contribEntries d t S, e.id.isSome) :
    ∃ r, mergeHabits d t S = some r :=
  mergeHabits_isSome d t S hhab hent

/-- A snapshot exercising every documented default: entries with ids
but no value, date or createdAt. -/
def snapDefaults : Snapshot :=
  { habits := [{ id := some "t", name := none, category := none,
                 targetPerWeek := none }],
    entries := [{ id := some "e1", habitId := some "t", date := none,
                  value := none, createdAt := none },
                { id := some "e2", habitId := some "t", date := none,
                  value := none, createdAt := none }],
    extra := [] }

/-- Witness for the amended C2 at a concrete input. -/
theorem merge_total_with_ids_witness :
    ∃ r, mergeHabits snapDefaults "t" [] = some r :=
  merge_total_with_ids snapDefaults "t" [] (by decide) (by decide)

/-- C7: constructing the query object with neither a file path nor an
in-memory snapshot fails with the load error (and, the constructor
being `Except`-valued, yields no partially loaded state); and over a
loaded snapshot whose entities carry ids, the merge never fails — in
particular missing optional per-entity fields are replaced by the
documented defaults, never raised on (the queries themselves are total
Lean functions by construction). -/
theorem init_requires_source_and_merge_total :
    initHumaneData none none = .error .loadError ∧
    (∀ d t S, (∀ h ∈ d.habits, h.id.isSome) →
      (∀ e ∈ d.entries, e.id.isSome) →
      ∃ r, mergeHabits d t S = some r) :=
  ⟨rfl, fun d t S hhab hent =>
    mergeHabits_isSome d t S hhab
      (fun e he => hent e (List.mem_filter.mp he).1)⟩

/-- Witness for C7's totality half at a concrete input. -/
theorem init_requires_source_and_merge_total_witness :
    ∃ r, mergeHabits snapDefaults "x" ["t"] = some r :=
  init_requires_source_and_merge_total.2 snapDefaults "x" ["t"]
    (by decide) (by decide)

lemma hasSubChars_nil : ∀ s : List Char, hasSubChars [] s = true := by
  intro s
  cases s <;> simp [hasSubChars, startsWithChars]

/-- C8: `find_habits_by_name` returns exactly the habits whose
(lowered) name contains the (lowered) pattern, as a sublist of the
habits (original order); the empty pattern matches every habit; and
two patterns with the same lowering — in particular a pattern with its
letter case changed — give identical results. -/
theorem find_by_name_spec (d : Snapshot) :
    (∀ p h, h ∈ find_habits_by_name d p ↔
      h ∈ d.habits ∧
        hasSubChars (lowerStr p) (lowerStr (h.name.getD "")) = true) ∧
    (∀ p, (find_habits_by_name d p).Sublist d.habits) ∧
    find_habits_by_name d "" = d.habits ∧
    (∀ p q, lowerStr p = lowerStr q →
      find_habits_by_name d p = find_habits_by_name d q) := by
  refine ⟨?_, ?_, ?_, ?_⟩
  · intro p h
    exact List.mem_filter
  · intro p
    exact List.filter_sublist d.habits
  · rw [find_habits_by_name]
    apply List.filter_eq_self.mpr
    intro h _
    exact hasSubChars_nil _
  · intro p q hpq
    rw [find_habits_by_name, find_habits_by_name, hpq]

/-- The spec's running example snapshot: four fitness habits and one
entry each on 2025-11-28 (values 5, 8, 6, 10). -/
def snapEx : Snapshot :=
  { habits := [{ id := some "tgu", name := some "TGU", category := some "fitness",
                 targetPerWeek := some 3 },
               { id := some "tgu-l", name := some "TGU Left", category := some "fitness",
                 targetPerWeek := some 2 },
               { id := some "tgu-r", name := some "TGU Right", category := some "fitness",
                 targetPerWeek := some 2 },
               { id := some "kb", name := some "KB Swings", category := some "fitness",
                 targetPerWeek := some 5 }],
    entries := [{ id := some "e1", habitId := some "tgu", date := some "2025-11-28",
                  value := some 5, createdAt := some "a" },
                { id := some "e2", habitId := some "tgu-l", date := some "2025-11-28",
                  value := some 8, createdAt := some "b" },
                { id := some "e3", habitId := some "tgu-r", date := some "2025-11-28",
                  value := some 6, createdAt := some "c" },
                { id := some "e7", habitId := some "kb", date := some "2025-11-28",
                  value := some 10, createdAt := some "g" }],
    extra := [("version", "1")] }

/-- Witness for C8's case-invariance half at a concrete input. -/
theorem find_by_name_spec_witness :
    lowerStr "TGU" = lowerStr "tgu" ∧
    find_habits_by_name snapEx "TGU" = find_habits_by_name snapEx "tgu" :=
  ⟨by decide, (find_by_name_spec snapEx).2.2.2 "TGU" "tgu" (by decide)⟩

/-- C6: `get_category_stats` yields one tuple per category, in strictly
ascending (lexicographic) category-name order; each tuple's count and
target sum are those of the habits of that category (missing category
read as "uncategorized", missing targetPerWeek as 0); a category is
listed exactly when some habit belongs to it; and the counts sum to
the total habit count. -/
theorem category_stats_spec (d : Snapshot) :
    ((get_category_stats d).map Prod.fst).Pairwise (· < ·) ∧
    (∀ p ∈ get_category_stats d,
      p.2.1 = (d.habits.filter (fun h => categoryOf h == p.1)).length ∧
      p.2.2 = ((d.habits.filter (fun h => categoryOf h == p.1)).map targetOf).sum) ∧
    (∀ c, (∃ h ∈ d.habits, categoryOf h = c) ↔
      c ∈ (get_category_stats d).map Prod.fst) ∧
    ((get_category_stats d).map (fun p => p.2.1)).sum = d.habits.length := by
  have hperm : List.Perm
      (List.insertionSort (fun (a b : String × List Habit) => a.1 ≤ b.1)
        (get_categories d)) (get_categories d) :=
    List.perm_insertionSort _ _
  have hsorted : List.Sorted (fun (a b : String × List Habit) => a.1 ≤ b.1)
      (List.insertionSort (fun a b => a.1 ≤ b.1) (get_categories d)) := by
    haveI htot : IsTotal (String × List Habit) (fun a b => a.1 ≤ b.1) :=
      ⟨fun a b => le_total a.1 b.1⟩
    haveI htrans : IsTrans (String × List Habit) (fun a b => a.1 ≤ b.1) :=
      ⟨fun a b c hab hbc => le_trans hab hbc⟩
    exact List.sorted_insertionSort _ _
  have hkeysnd : ((List.insertionSort (fun (a b : String × List Habit) => a.1 ≤ b.1)
      (get_categories d)).map Prod.fst).Nodup := by
    rw [List.Perm.nodup_iff (hperm.map Prod.fst)]
    exact nodup_keys_groupByKey categoryOf d.habits
  refine ⟨?_, ?_, ?_, ?_⟩
  · -- strict sortedness of the category names
    have hmap : (get_category_stats d).map Prod.fst =
        (List.insertionSort (fun (a b : String × List Habit) => a.1 ≤ b.1)
          (get_categories d)).map Prod.fst := by
      rw [get_category_stats, List.map_map]
      rfl
    rw [hmap]
    have hle : ((List.insertionSort (fun (a b : String × List Habit) => a.1 ≤ b.1)
        (get_categories d)).map Prod.fst).Pairwise (· ≤ ·) :=
      List.pairwise_map.mpr hsorted
    have hne : ((List.insertionSort (fun (a b : String × List Habit) => a.1 ≤ b.1)
        (get_categories d)).map Prod.fst).Pairwise (· ≠ ·) := hkeysnd
    exact (hle.and hne).imp (fun hab => lt_of_le_of_ne hab.1 hab.2)
  · -- each tuple's count and sum come from its category's habits
    intro p hp
    rw [get_category_stats, List.mem_map] at hp
    rcases hp with ⟨q, hq, rfl⟩
    have hq' : q ∈ get_categories d := hperm.mem_iff.mp hq
    have hchar : q.2 = d.habits.filter (fun h => categoryOf h == q.1) :=
      mem_groupByKey categoryOf hq'
    exact ⟨by rw [hchar], by rw [hchar]⟩
  · -- a category is listed exactly when inhabited
    intro c
    have hmap : (get_category_stats d).map Prod.fst =
        (List.insertionSort (fun (a b : String × List Habit) => a.1 ≤ b.1)
          (get_categories d)).map Prod.fst := by
      rw [get_category_stats, List.map_map]
      rfl
    rw [hmap, (hperm.map Prod.fst).mem_iff]
    exact (keys_groupByKey categoryOf).symm
  · -- the counts sum to the habit count
    have hmap : (get_category_stats d).map (fun p => p.2.1) =
        (List.insertionSort (fun (a b : String × List Habit) => a.1 ≤ b.1)
          (get_categories d)).map (fun p => p.2.length) := by
      rw [get_category_stats, List.map_map]
      rfl
    rw [hmap, (hperm.map (fun p => p.2.length)).sum_eq]
    exact sum_groupByKey categoryOf d.habits

lemma contributesb_nil {t : String} {e : Entry} :
    contributesb t [] e = (e.habitId == some t) := by
  unfold contributesb
  rcases e.habitId with _ | i <;> simp

lemma effSources_nil_of {t : String} {S : List String}
    (hS : ∀ s ∈ S, s = t) : effSources t S = [] := by
  unfold effSources
  rw [List.filter_eq_nil_iff]
  intro s hs
  simp [hS s hs]

lemma contribEntries_self {d : Snapshot} {t : String} {S : List String}
    (hS : ∀ s ∈ S, s = t) :
    contribEntries d t S = d.entries.filter (fun e => e.habitId == some t) := by
  unfold contribEntries
  rw [effSources_nil_of hS]
  apply List.filter_congr
  intro e _
  exact contributesb_nil

/-- C9: merging with an empty effective source set (sources empty or
naming only the target) still rewrites the target's entries rather
than passing them through: the result is the non-target entries
followed by the rewritten target entries, whose dates are pairwise
distinct normalized (10-character) dates, one per day on which the
target has an entry, each carrying the maximum value recorded by the
target on that day; entries of other habits pass through untouched. -/
theorem merge_self_rewrites (d : Snapshot) (t : String) (S : List String)
    (hS : ∀ s ∈ S, s = t) (r : Snapshot) (hr : mergeHabits d t S = some r) :
    ∃ ms, mergedEntries d t S = some ms ∧
      r.entries = d.entries.filter (fun e => !(e.habitId == some t)) ++ ms ∧
      (ms.map Entry.date).Nodup ∧
      (∀ m ∈ ms, m.habitId = some t) ∧
      (∀ e ∈ d.entries, e.habitId = some t →
        ∃ m ∈ ms, m.date = some (normDate e)) ∧
      (∀ m ∈ ms, ∃ day v, m.date = some day ∧ m.value = some v ∧
        (∃ e ∈ d.entries, e.habitId = some t ∧ normDate e = day ∧ valOf e = v) ∧
        (∀ e ∈ d.entries, e.habitId = some t → normDate e = day →
          valOf e ≤ v)) := by
  rcases mergeHabits_parts hr with ⟨ms, hs, hms, hfh, hrh, hre, hrx⟩
  have hms' : mergeGroups t (groupByKey normDate (contribEntries d t S)) =
      some ms := hms
  have hcontrib : contribEntries d t S =
      d.entries.filter (fun e => e.habitId == some t) := contribEntries_self hS
  have hmem_contrib : ∀ e, e ∈ contribEntries d t S ↔
      e ∈ d.entries ∧ e.habitId = some t := by
    intro e
    rw [hcontrib, List.mem_filter]
    simp
  refine ⟨ms, hms, ?_, ?_, ?_, ?_, ?_⟩
  · -- untouched entries are exactly the non-target entries
    rw [hre]
    congr 1
    unfold untouchedEntries
    rw [effSources_nil_of hS]
    apply List.filter_congr
    intro e _
    rw [contributesb_nil]
  · -- merged dates are pairwise distinct
    rw [mergeGroups_dates hms]
    have : (groupByKey normDate (contribEntries d t S)).map
        (fun g => some g.1) =
        ((groupByKey normDate (contribEntries d t S)).map Prod.fst).map some := by
      rw [List.map_map]
      rfl
    rw [this]
    exact (nodup_keys_groupByKey normDate _).map
      (fun a b hab => by simpa using hab)
  · -- all merged entries carry the target id
    intro m hm
    rcases mergeGroups_mem hms m hm with ⟨g, _, w, _, hmk⟩
    rcases mkMergedEntry_eq hmk with ⟨i, _, rfl⟩
    rfl
  · -- one merged entry per target day
    intro e he hid
    have hec : e ∈ contribEntries d t S := (hmem_contrib e).mpr ⟨he, hid⟩
    rcases exists_group_of_mem normDate hec with ⟨g, hgmem, _⟩
    rcases mergeGroups_mem_left hms' (normDate e, g) hgmem with ⟨m, hm, w, _, hmk⟩
    rcases mkMergedEntry_eq hmk with ⟨i, _, hmrec⟩
    refine ⟨m, hm, ?_⟩
    rw [hmrec]
  · -- each merged entry is its day's maximum over the target's entries
    intro m hm
    rcases mergeGroups_mem hms' m hm with ⟨g, hgmem, w, hw, hmk⟩
    rcases mkMergedEntry_eq hmk with ⟨i, hwi, rfl⟩
    have hgchar : g.2 = (contribEntries d t S).filter
        (fun y => normDate y == g.1) := mem_groupByKey normDate hgmem
    have hwg : w ∈ g.2 := firstMax_mem hw
    have hwc : w ∈ contribEntries d t S ∧ normDate w = g.1 := by
      rw [hgchar, List.mem_filter] at hwg
      exact ⟨hwg.1, by simpa using hwg.2⟩
    rcases (hmem_contrib w).mp hwc.1 with ⟨hwd, hwid⟩
    refine ⟨g.1, valOf w, rfl, rfl, ⟨w, hwd, hwid, hwc.2, rfl⟩, ?_⟩
    intro e he hid hday
    have heg : e ∈ g.2 := by
      rw [hgchar, List.mem_filter]
      exact ⟨(hmem_contrib e).mpr ⟨he, hid⟩, by simp [hday]⟩
    exact firstMax_le hw e heg

lemma stats_counts_sum (d : Snapshot) :
    ((get_category_stats d).map (fun p => p.2.1)).sum = d.habits.length := by
  have hperm : List.Perm
      (List.insertionSort (fun (a b : String × List Habit) => a.1 ≤ b.1)
        (get_categories d)) (get_categories d) :=
    List.perm_insertionSort _ _
  have hmap : (get_category_stats d).map (fun p => p.2.1) =
      (List.insertionSort (fun (a b : String × List Habit) => a.1 ≤ b.1)
        (get_categories d)).map (fun p => p.2.length) := by
    rw [get_category_stats, List.map_map]
    rfl
  rw [hmap, (hperm.map (fun p => p.2.length)).sum_eq]
  exact sum_groupByKey categoryOf d.habits

lemma pair_sublist_filter {p : Habit → Bool} {l₁ l₂ l₃ : List Habit}
    {h1 h2 : Habit} (hp1 : p h1 = true) (hp2 : p h2 = true) :
    List.Sublist [h1, h2] ((l₁ ++ h1 :: (l₂ ++ h2 :: l₃)).filter p) := by
  rw [List.filter_append, List.filter_cons_of_pos hp1, List.filter_append,
    List.filter_cons_of_pos hp2]
  simp

/-- C10: when the habits list holds two habits with the same id, the
list-based queries see both occurrences — both appear (in order) in
their category's group and in `get_habits_by_category`, and the stat
counts still sum to the full list length, duplicates included — while
the id-keyed index behind `get_habit_name` keeps only the last
occurrence, and `get_entries_for_habit` selects entries by the id
string alone. -/
theorem duplicate_id_semantics (d : Snapshot) (i c : String)
    (h1 h2 : Habit) (l₁ l₂ l₃ : List Habit)
    (hsplit : d.habits = l₁ ++ h1 :: (l₂ ++ h2 :: l₃))
    (hid1 : h1.id = some i) (hid2 : h2.id = some i)
    (hlast : ∀ h ∈ l₃, h.id ≠ some i)
    (hc1 : h1.category = some c) (hc2 : h2.category = some c) :
    habitIndex d.habits i = some h2 ∧
    get_habit_name d i = h2.name.getD "Unknown" ∧
    ((get_category_stats d).map (fun p => p.2.1)).sum = d.habits.length ∧
    (∃ g, (c, g) ∈ get_categories d ∧ List.Sublist [h1, h2] g) ∧
    List.Sublist [h1, h2] (get_habits_by_category d c) ∧
    get_entries_for_habit d i = d.entries.filter (fun e => e.habitId == some i) := by
  have hidx : habitIndex d.habits i = some h2 := by
    unfold habitIndex
    rw [hsplit, List.filter_append, List.filter_cons_of_pos (by simp [hid1]),
      List.filter_append, List.filter_cons_of_pos (by simp [hid2])]
    have hl3 : l₃.filter (fun h => h.id == some i) = [] := by
      rw [List.filter_eq_nil_iff]
      intro h hh
      simp [hlast h hh]
    rw [hl3]
    rw [show l₁.filter (fun h => h.id == some i) ++
        h1 :: (l₂.filter (fun h => h.id == some i) ++ h2 :: []) =
        (l₁.filter (fun h => h.id == some i) ++
          h1 :: l₂.filter (fun h => h.id == some i)) ++ [h2] by
      simp]
    exact List.getLast?_concat _
  have hcat1 : categoryOf h1 = c := by simp [categoryOf, hc1]
  have hcat2 : categoryOf h2 = c := by simp [categoryOf, hc2]
  refine ⟨hidx, ?_, stats_counts_sum d, ?_, ?_, rfl⟩
  · rw [get_habit_name, hidx]
  · have hmem : h1 ∈ d.habits := by
      rw [hsplit]
      simp
    rcases exists_group_of_mem categoryOf hmem with ⟨g, hgmem, hgeq⟩
    rw [hcat1] at hgmem hgeq
    refine ⟨g, hgmem, ?_⟩
    rw [hgeq, hsplit]
    exact pair_sublist_filter (by simp [hcat1]) (by simp [hcat2])
  · unfold get_habits_by_category
    rw [hsplit]
    exact pair_sublist_filter (by simp [hc1]) (by simp [hc2])

/-- The concrete result of merging `tgu-l`, `tgu-r` into `tgu` on the
example snapshot. -/
def snapExMerged : Snapshot :=
  { habits := [{ id := some "tgu", name := some "TGU", category := some "fitness",
                 targetPerWeek := some 3 },
               { id := some "kb", name := some "KB Swings", category := some "fitness",
                 targetPerWeek := some 5 }],
    entries := [{ id := some "e7", habitId := some "kb", date := some "2025-11-28",
                  value := some 10, createdAt := some "g" },
                { id := some "e2", habitId := some "tgu", date := some "2025-11-28",
                  value := some 8, createdAt := some "b" }],
    extra := [("version", "1")] }

/-- Witness for C1 at the example snapshot: on 2025-11-28 the merge
emits one entry, the maximum (value 8, entry e2). -/
theorem merge_max_per_date_witness :
    ∃ w : Entry,
      w ∈ dayGroup snapEx "tgu" ["tgu-l", "tgu-r"] "2025-11-28" ∧
      (∀ x ∈ dayGroup snapEx "tgu" ["tgu-l", "tgu-r"] "2025-11-28",
        valOf x ≤ valOf w) ∧
      (∃ l₁ l₂, dayGroup snapEx "tgu" ["tgu-l", "tgu-r"] "2025-11-28" =
          l₁ ++ w :: l₂ ∧ ∀ x ∈ l₁, valOf x < valOf w) ∧
      (([{ id := some "e2", habitId := some "tgu", date := some "2025-11-28",
           value := some 8, createdAt := some "b" }] : List Entry).filter
        (fun m => m.date == some "2025-11-28")).length = 1 ∧
      (∀ m ∈ ([{ id := some "e2", habitId := some "tgu",
                 date := some "2025-11-28", value := some 8,
                 createdAt := some "b" }] : List Entry),
        m.date = some "2025-11-28" →
        m = { id := w.id, habitId := some "tgu", date := some "2025-11-28",
              value := some (valOf w),
              createdAt := some (w.createdAt.getD "") }) :=
  merge_max_per_date snapEx "tgu" ["tgu-l", "tgu-r"]
    [{ id := some "e2", habitId := some "tgu", date := some "2025-11-28",
       value := some 8, createdAt := some "b" }]
    (by decide) "2025-11-28" (by decide)

/-- Witness for C3 at the example snapshot: the merged e2 entry does
not keep its source id `tgu-l`. -/
theorem merge_reassigns_habit_ids_witness :
    ({ id := some "e2", habitId := some "tgu", date := some "2025-11-28",
       value := some 8, createdAt := some "b" } : Entry).habitId ≠
      some "tgu-l" :=
  (merge_reassigns_habit_ids snapEx "tgu" ["tgu-l", "tgu-r"] snapExMerged
    (by decide)).1
    { id := some "e2", habitId := some "tgu", date := some "2025-11-28",
      value := some 8, createdAt := some "b" }
    (by decide) "tgu-l" (by decide)

/-- Witness for C4 at the example snapshot. -/
theorem merge_removes_source_habits_witness :
    snapExMerged.habits = snapEx.habits.filter
      (fun h => decide (¬ ∃ s ∈ effSources "tgu" ["tgu-l", "tgu-r"],
        h.id = some s)) :=
  (merge_removes_source_habits snapEx "tgu" ["tgu-l", "tgu-r"] snapExMerged
    (by decide)).1

/-- Witness for C5 at the example snapshot. -/
theorem merge_frame_witness :
    ∃ ms, mergedEntries snapEx "tgu" ["tgu-l", "tgu-r"] = some ms ∧
      snapExMerged.entries =
        untouchedEntries snapEx "tgu" ["tgu-l", "tgu-r"] ++ ms ∧
      untouchedEntries snapEx "tgu" ["tgu-l", "tgu-r"] =
        snapEx.entries.filter
          (fun e => !contributesb "tgu"
            (effSources "tgu" ["tgu-l", "tgu-r"]) e) ∧
      (untouchedEntries snapEx "tgu" ["tgu-l", "tgu-r"]).Sublist
        snapEx.entries ∧
      (∀ e ∈ snapEx.entries,
        contributesb "tgu" (effSources "tgu" ["tgu-l", "tgu-r"]) e = false →
        e ∈ untouchedEntries snapEx "tgu" ["tgu-l", "tgu-r"]) ∧
      snapExMerged.extra = snapEx.extra :=
  merge_frame snapEx "tgu" ["tgu-l", "tgu-r"] snapExMerged (by decide)

/-- Witness for C6's per-tuple half at the example snapshot. -/
theorem category_stats_spec_witness :
    ("fitness", (4 : Nat), (12 : Int)) ∈ get_category_stats snapEx ∧
    (4 : Nat) =
      (snapEx.habits.filter (fun h => categoryOf h == "fitness")).length :=
  ⟨by decide,
    ((category_stats_spec snapEx).2.1 ("fitness", 4, 12) (by decide)).1⟩

/-- The concrete result of the example snapshot's self-merge
(`sources = ["tgu"]`). -/
def snapSelfMerged : Snapshot :=
  { habits := snapEx.habits,
    entries := [{ id := some "e2", habitId := some "tgu-l",
                  date := some "2025-11-28", value := some 8,
                  createdAt := some "b" },
                { id := some "e3", habitId := some "tgu-r",
                  date := some "2025-11-28", value := some 6,
                  createdAt := some "c" },
                { id := some "e7", habitId := some "kb",
                  date := some "2025-11-28", value := some 10,
                  createdAt := some "g" },
                { id := some "e1", habitId := some "tgu",
                  date := some "2025-11-28", value := some 5,
                  createdAt := some "a" }],
    extra := [("version", "1")] }

/-- Witness for C9: self-merge of the example snapshot still rewrites
the target's entries and moves them after the others. -/
theorem merge_self_rewrites_witness :
    ∃ ms, mergedEntries snapEx "tgu" ["tgu"] = some ms ∧
      snapSelfMerged.entries =
        snapEx.entries.filter (fun e => !(e.habitId == some "tgu")) ++ ms ∧
      (ms.map Entry.date).Nodup ∧
      (∀ m ∈ ms, m.habitId = some "tgu") ∧
      (∀ e ∈ snapEx.entries, e.habitId = some "tgu" →
        ∃ m ∈ ms, m.date = some (normDate e)) ∧
      (∀ m ∈ ms, ∃ day v, m.date = some day ∧ m.value = some v ∧
        (∃ e ∈ snapEx.entries, e.habitId = some "tgu" ∧ normDate e = day ∧
          valOf e = v) ∧
        (∀ e ∈ snapEx.entries, e.habitId = some "tgu" → normDate e = day →
          valOf e ≤ v)) :=
  merge_self_rewrites snapEx "tgu" ["tgu"] (by decide) snapSelfMerged
    (by decide)

/-- A snapshot with two habits sharing the id "a". -/
def snapDup : Snapshot :=
  { habits := [{ id := some "a", name := some "First", category := some "fitness",
                 targetPerWeek := some 1 },
               { id := some "b", name := some "Other", category := some "wellness",
                 targetPerWeek := some 2 },
               { id := some "a", name := some "Second", category := some "fitness",
                 targetPerWeek := some 3 }],
    entries := [{ id := some "e1", habitId := some "a", date := some "2025-01-01",
                  value := some 1, createdAt := some "x" }],
    extra := [] }

/-- Witness for C10 at the duplicated snapshot: the index keeps the
second "a" habit. -/
theorem duplicate_id_semantics_witness :
    habitIndex snapDup.habits "a" =
      some { id := some "a", name := some "Second",
             category := some "fitness", targetPerWeek := some 3 } :=
  (duplicate_id_semantics snapDup "a" "fitness"
    { id := some "a", name := some "First", category := some "fitness",
      targetPerWeek := some 1 }
    { id := some "a", name := some "Second", category := some "fitness",
      targetPerWeek := some 3 }
    []
    [{ id := some "b", name := some "Other", category := some "wellness",
       targetPerWeek := some 2 }]
    []
    (by decide) (by decide) (by decide) (by decide) (by decide) (by decide)).1
